import Mathlib

/-!
Verification development for the ink2md repository.

This file gives a shallow embedding, in Lean 4, of the core pipeline of the
repository: the mindmap domain model and FreeMind serializer
(`src/ink2md/mindmap.py`), the processing-state ledger
(`src/cloud_monitor_pdf2md/state.py`), the output-handler naming scheme and
git transaction logic (`src/ink2md/output.py`), and the three processor
variants (`src/ink2md/processor.py`).  Python strings are modelled as
`List Char`; external collaborators (connector, conversion backend, git)
are modelled as oracles / explicit state, and the processors' side effects
are recorded as event traces.
-/

namespace Ink2md

/-! ## String helpers (models of Python `str` operations).

Python's `str.lower`, `str.strip`, `str.lstrip("#")` and the substring
test `in` are modelled over `List Char`.  `toLowerStr` models `str.lower`
char-wise (all routing inputs in the repository are ASCII). -/

def toLowerStr (s : List Char) : List Char := s.map Char.toLower

def isPyWhitespace (c : Char) : Bool :=
  c = ' ' || c = '\t' || c = '\n' || c = '\r' || c = '\x0b' || c = '\x0c'

/-- Model of Python `str.strip()` (whitespace from both ends). -/
def stripWS (s : List Char) : List Char :=
  ((s.dropWhile isPyWhitespace).reverse.dropWhile isPyWhitespace).reverse

/-- Model of Python `str.strip("-")`. -/
def stripHyphens (s : List Char) : List Char :=
  ((s.dropWhile (· = '-')).reverse.dropWhile (· = '-')).reverse

/-- Model of Python `str.lstrip("#")`. -/
def lstripHash (s : List Char) : List Char := s.dropWhile (· = '#')

/-- Model of Python's substring test `needle in haystack`. -/
def strContains (haystack needle : List Char) : Bool :=
  needle.isPrefixOf haystack ||
    match haystack with
    | [] => false
    | _ :: t => strContains t needle

/-! ## Mindmap domain model (`src/ink2md/mindmap.py`). -/

inductive MindmapNode where
  | mk (text : List Char) (children : List MindmapNode)
       (link : Option (List Char)) (color : Option (List Char))
       (priority : Option Int)

def MindmapNode.text : MindmapNode → List Char
  | .mk t _ _ _ _ => t

def MindmapNode.children : MindmapNode → List MindmapNode
  | .mk _ c _ _ _ => c

def MindmapNode.link : MindmapNode → Option (List Char)
  | .mk _ _ l _ _ => l

def MindmapNode.color : MindmapNode → Option (List Char)
  | .mk _ _ _ c _ => c

def MindmapNode.priority : MindmapNode → Option Int
  | .mk _ _ _ _ p => p

structure Mindmap where
  root : MindmapNode

/-- Model of a chained `str.replace(old, new)` step in `_escape`: replace
every occurrence of the single character `c` by `rep`. -/
def replaceChar (c : Char) (rep : List Char) : List Char → List Char
  | [] => []
  | x :: xs => if x = c then rep ++ replaceChar c rep xs else x :: replaceChar c rep xs

/-- `_escape` from `src/ink2md/mindmap.py`: five chained replaces, with `&`
replaced first so that entity ampersands are not re-escaped. -/
def escapeXml (value : List Char) : List Char :=
  replaceChar '\x27' "&apos;".toList
    (replaceChar '"' "&quot;".toList
      (replaceChar '>' "&gt;".toList
        (replaceChar '<' "&lt;".toList
          (replaceChar '&' "&amp;".toList value))))

/-- The attribute list built by `_serialize_node`: TEXT always; LINK and
COLOR when truthy (`if node.link:` — present and non-empty); PRIORITY when
not `None` (rendered through `str(...)`). -/
def nodeAttributes (n : MindmapNode) : List (List Char × List Char) :=
  [("TEXT".toList, n.text)]
    ++ (match n.link with
        | some l => if l.isEmpty then [] else [("LINK".toList, l)]
        | none => [])
    ++ (match n.color with
        | some c => if c.isEmpty then [] else [("COLOR".toList, c)]
        | none => [])
    ++ (match n.priority with
        | some p => [("PRIORITY".toList, (toString p).toList)]
        | none => [])

/-- Model of `sep.join(parts)`. -/
def joinSep (sep : List Char) : List (List Char) → List Char
  | [] => []
  | [x] => x
  | x :: xs => x ++ sep ++ joinSep sep xs

/-- The `attr_text` string of `_serialize_node`:
`" ".join(f'{key}="{_escape(value)}"' ...)`. -/
def attrText (n : MindmapNode) : List Char :=
  joinSep [' ']
    ((nodeAttributes n).map fun kv =>
      kv.1 ++ '=' :: '"' :: (escapeXml kv.2 ++ ['"']))

mutual

/-- `_serialize_node` from `src/ink2md/mindmap.py`. -/
def serializeNode (n : MindmapNode) (indent : Nat) : List Char :=
  match n with
  | .mk t children l c p =>
    let node := MindmapNode.mk t children l c p
    let pad := List.replicate indent ' '
    match children with
    | [] => pad ++ "<node ".toList ++ attrText node ++ "/>".toList
    | c0 :: cs =>
      pad ++ "<node ".toList ++ attrText node ++ ">".toList ++ '\n' ::
        (joinSep ['\n'] (serializeChildren (c0 :: cs) (indent + 2)) ++
          '\n' :: pad ++ "</node>".toList)

/-- The list comprehension over `node.children` in `_serialize_node`. -/
def serializeChildren (ns : List MindmapNode) (indent : Nat) : List (List Char) :=
  match ns with
  | [] => []
  | n :: rest => serializeNode n indent :: serializeChildren rest indent

end

/-- `serialize_to_freemind` from `src/ink2md/mindmap.py`. -/
def serializeToFreemind (m : Mindmap) : List Char :=
  joinSep ['\n']
    ["<?xml version=\"1.0\" encoding=\"UTF-8\"?>".toList,
     "<map version=\"1.0.1\">".toList,
     serializeNode m.root 2,
     "</map>".toList]

/-! ## JSON payloads and `MindmapNode.from_dict`. -/

inductive Json where
  | null
  | bool (b : Bool)
  | num (n : Int)
  | str (s : List Char)
  | arr (xs : List Json)
  | obj (fields : List (String × Json))

/-- Python `dict.get(key)` on a JSON object modelled as an association
list (first match wins). -/
def jsonGet (fields : List (String × Json)) (key : String) : Option Json :=
  match fields with
  | [] => none
  | (k, v) :: rest => if k = key then some v else jsonGet rest key

def allowedNodeKeys : List String := ["text", "children", "link", "color", "priority"]

/-- Python `str.isdigit` on the ASCII range. -/
def isDigitStr (s : List Char) : Bool :=
  !s.isEmpty && s.all (fun c => '0' ≤ c && c ≤ '9')

/-- Python `int(...)` applied to a digit string. -/
def parseDigits (s : List Char) : Int :=
  Int.ofNat (s.foldl (fun acc c => acc * 10 + (c.toNat - '0'.toNat)) 0)

inductive NodeErr where
  | notMapping
  | unexpectedKeys
  | badText
  | badChildren
  | badLink
  | badColor
  | badPriority
deriving DecidableEq

/-- The `priority` validation tail of `from_dict`.  Note Python's `bool` is
a subclass of `int`, so a boolean priority passes `isinstance(..., int)`. -/
def nodePriorityCheck (fields : List (String × Json)) (text : List Char)
    (children : List MindmapNode) (link color : Option (List Char)) :
    Except NodeErr MindmapNode :=
  match jsonGet fields "priority" with
  | some .null => .ok (.mk text children link color none)
  | none => .ok (.mk text children link color none)
  | some (.num p) => .ok (.mk text children link color (some p))
  | some (.bool b) => .ok (.mk text children link color (some (if b then 1 else 0)))
  | some (.str s) =>
    if isDigitStr (stripWS s) then
      .ok (.mk text children link color (some (parseDigits (stripWS s))))
    else .error .badPriority
  | some _ => .error .badPriority

/-- The `color` validation step of `from_dict`. -/
def nodeColorCheck (fields : List (String × Json)) (text : List Char)
    (children : List MindmapNode) (link : Option (List Char)) :
    Except NodeErr MindmapNode :=
  match jsonGet fields "color" with
  | some (.str c) => nodePriorityCheck fields text children link (some (stripWS c))
  | some .null => nodePriorityCheck fields text children link none
  | none => nodePriorityCheck fields text children link none
  | some _ => .error .badColor

/-- The `link` validation step of `from_dict`. -/
def nodeLinkCheck (fields : List (String × Json)) (text : List Char)
    (children : List MindmapNode) : Except NodeErr MindmapNode :=
  match jsonGet fields "link" with
  | some (.str l) => nodeColorCheck fields text children (some (stripWS l))
  | some .null => nodeColorCheck fields text children none
  | none => nodeColorCheck fields text children none
  | some _ => .error .badLink

mutual

def jsonSize : Json → Nat
  | .null | .bool _ | .num _ | .str _ => 1
  | .arr xs => 1 + jsonListSize xs
  | .obj fields => 1 + jsonFieldsSize fields

def jsonListSize : List Json → Nat
  | [] => 0
  | x :: xs => jsonSize x + jsonListSize xs

def jsonFieldsSize : List (String × Json) → Nat
  | [] => 0
  | (_, v) :: rest => jsonSize v + jsonFieldsSize rest

end

theorem jsonSize_lt_of_mem {x : Json} {xs : List Json} (h : x ∈ xs) :
    jsonSize x < jsonSize (.arr xs) := by
  induction xs with
  | nil => cases h
  | cons y ys ih =>
    rcases List.mem_cons.mp h with rfl | h'
    · simp only [jsonSize, jsonListSize]
      omega
    · have := ih h'
      simp only [jsonSize, jsonListSize] at *
      omega

theorem jsonGet_size_lt {fields : List (String × Json)} {key : String} {v : Json}
    (h : jsonGet fields key = some v) :
    jsonSize v < jsonSize (.obj fields) := by
  induction fields with
  | nil => simp [jsonGet] at h
  | cons kv rest ih =>
    obtain ⟨k, w⟩ := kv
    by_cases hk : k = key
    · simp [jsonGet, hk] at h
      subst h
      simp only [jsonSize, jsonFieldsSize]
      omega
    · simp [jsonGet, hk] at h
      have := ih h
      simp only [jsonSize, jsonFieldsSize] at *
      omega

/-- `MindmapNode.from_dict` from `src/ink2md/mindmap.py`, with validation
errors surfaced as `Except`.  The checks appear in the source's order:
mapping shape, unexpected keys, `text`, `children` (an explicit `null` is
replaced by the empty list before the list-shape check), the recursive
children parse, then `link`, `color`, `priority`. -/
def fromDict (j : Json) : Except NodeErr MindmapNode :=
  match j with
  | .obj fields =>
    if ((fields.map Prod.fst).filter (fun k => !allowedNodeKeys.contains k)) ≠ [] then
      .error .unexpectedKeys
    else
      match jsonGet fields "text" with
      | some (.str t) =>
        if (stripWS t).isEmpty then .error .badText
        else
          match hch : jsonGet fields "children" with
          | none => nodeLinkCheck fields (stripWS t) []
          | some .null => nodeLinkCheck fields (stripWS t) []
          | some (.arr xs) =>
            match xs.attach.mapM (fun c => fromDict c.1) with
            | .error e => .error e
            | .ok children => nodeLinkCheck fields (stripWS t) children
          | some _ => .error .badChildren
      | some _ => .error .badText
      | none => .error .badText
  | _ => .error .notMapping
termination_by jsonSize j
decreasing_by
  have h1 : jsonSize c.1 < jsonSize (Json.arr xs) := jsonSize_lt_of_mem c.2
  have h2 : jsonSize (Json.arr xs) < jsonSize (Json.obj fields) := jsonGet_size_lt hch
  omega

/-- `Mindmap.from_mapping` from `src/ink2md/mindmap.py`. -/
def mindmapFromMapping (j : Json) : Except NodeErr Mindmap :=
  match j with
  | .obj fields =>
    match jsonGet fields "root" with
    | some (.obj rootFields) =>
      match fromDict (.obj rootFields) with
      | .error e => .error e
      | .ok root => .ok ⟨root⟩
    | some _ => .error .notMapping
    | none => .error .notMapping
  | _ => .error .notMapping

end Ink2md

/-! ## Escaping and attribute-order facts for the FreeMind serializer. -/

namespace Ink2md

/-- The XML entity for each of the five escaped characters; all other
characters pass through unchanged. -/
def xmlEntity (c : Char) : List Char :=
  if c = '&' then "&amp;".toList
  else if c = '<' then "&lt;".toList
  else if c = '>' then "&gt;".toList
  else if c = '"' then "&quot;".toList
  else if c = '\x27' then "&apos;".toList
  else [c]

theorem replaceChar_append (c : Char) (rep a b : List Char) :
    replaceChar c rep (a ++ b) = replaceChar c rep a ++ replaceChar c rep b := by
  induction a with
  | nil => rfl
  | cons x xs ih =>
    by_cases hx : x = c <;> simp [replaceChar, hx, ih]

theorem escapeXml_append (a b : List Char) :
    escapeXml (a ++ b) = escapeXml a ++ escapeXml b := by
  simp [escapeXml, replaceChar_append]

theorem escapeXml_single (x : Char) : escapeXml [x] = xmlEntity x := by
  by_cases h1 : x = '&'
  · subst h1; decide
  by_cases h2 : x = '<'
  · subst h2; decide
  by_cases h3 : x = '>'
  · subst h3; decide
  by_cases h4 : x = '"'
  · subst h4; decide
  by_cases h5 : x = '\x27'
  · subst h5; decide
  simp [escapeXml, replaceChar, xmlEntity, h1, h2, h3, h4, h5]

theorem escapeXml_eq_flatMap (s : List Char) :
    escapeXml s = s.flatMap xmlEntity := by
  induction s with
  | nil => rfl
  | cons x xs ih =>
    have h : (x :: xs) = [x] ++ xs := rfl
    rw [h, escapeXml_append, escapeXml_single, ih]
    simp

/-- Python truthiness of an `Optional[str]` attribute (`if node.link:`). -/
def optTruthy : Option (List Char) → Bool
  | none => false
  | some s => !s.isEmpty

/-- The fixed attribute ordering of the FreeMind dialect. -/
def attrKeyOrder : List (List Char) :=
  ["TEXT".toList, "LINK".toList, "COLOR".toList, "PRIORITY".toList]

/-- Which attributes a node carries: TEXT always, LINK/COLOR when truthy,
PRIORITY when present. -/
def attrKeyPresent (n : MindmapNode) (k : List Char) : Bool :=
  if k = "TEXT".toList then true
  else if k = "LINK".toList then optTruthy n.link
  else if k = "COLOR".toList then optTruthy n.color
  else if k = "PRIORITY".toList then n.priority.isSome
  else false

theorem nodeAttributes_keys (n : MindmapNode) :
    (nodeAttributes n).map Prod.fst = attrKeyOrder.filter (attrKeyPresent n) := by
  obtain ⟨t, ch, l, c, p⟩ := n
  cases l with
  | none =>
    cases c with
    | none =>
      cases p <;>
        simp [nodeAttributes, attrKeyOrder, attrKeyPresent, optTruthy,
          MindmapNode.link, MindmapNode.color, MindmapNode.priority, List.filter]
    | some cv =>
      cases p <;> by_cases hc : cv.isEmpty <;>
        simp [nodeAttributes, attrKeyOrder, attrKeyPresent, optTruthy, hc,
          MindmapNode.link, MindmapNode.color, MindmapNode.priority, List.filter]
  | some lv =>
    cases c with
    | none =>
      cases p <;> by_cases hl : lv.isEmpty <;>
        simp [nodeAttributes, attrKeyOrder, attrKeyPresent, optTruthy, hl,
          MindmapNode.link, MindmapNode.color, MindmapNode.priority, List.filter]
    | some cv =>
      cases p <;> by_cases hl : lv.isEmpty <;> by_cases hc : cv.isEmpty <;>
        simp [nodeAttributes, attrKeyOrder, attrKeyPresent, optTruthy, hl, hc,
          MindmapNode.link, MindmapNode.color, MindmapNode.priority, List.filter]

end Ink2md

namespace Ink2md

theorem serializeNode_leaf (n : MindmapNode) (indent : Nat) (h : n.children = []) :
    serializeNode n indent =
      List.replicate indent ' ' ++ "<node ".toList ++ attrText n ++ "/>".toList := by
  obtain ⟨t, ch, l, c, p⟩ := n
  simp only [MindmapNode.children] at h
  subst h
  rw [serializeNode.eq_def]

/-- C9: `serialize_to_freemind` is a deterministic function of the tree:
equal `Mindmap` values give byte-identical output; a node with no children
renders as a single self-closing `<node .../>` line indented by its indent
level (the recursion adds two spaces per depth level); the attribute keys
appear in the fixed order TEXT, LINK, COLOR, PRIORITY with absent ones
omitted; and escaping replaces exactly the five characters
`& < > " '` by their XML entities, leaving all other characters unchanged. -/
theorem C9_freemind_serialization_deterministic :
    (∀ m₁ m₂ : Mindmap, m₁ = m₂ → serializeToFreemind m₁ = serializeToFreemind m₂) ∧
    (∀ (n : MindmapNode) (indent : Nat), n.children = [] →
      serializeNode n indent =
        List.replicate indent ' ' ++ "<node ".toList ++ attrText n ++ "/>".toList) ∧
    (∀ n : MindmapNode,
      (nodeAttributes n).map Prod.fst = attrKeyOrder.filter (attrKeyPresent n)) ∧
    (∀ s : List Char, escapeXml s = s.flatMap xmlEntity) :=
  ⟨fun _ _ h => by rw [h], serializeNode_leaf, nodeAttributes_keys, escapeXml_eq_flatMap⟩

def exampleLeaf : MindmapNode := MindmapNode.mk "Leaf A2".toList [] none none none

theorem C9_witness :
    serializeToFreemind ⟨exampleLeaf⟩ = serializeToFreemind ⟨exampleLeaf⟩ ∧
    serializeNode exampleLeaf 4 =
      List.replicate 4 ' ' ++ "<node ".toList ++ attrText exampleLeaf ++ "/>".toList ∧
    (nodeAttributes exampleLeaf).map Prod.fst = attrKeyOrder.filter (attrKeyPresent exampleLeaf) ∧
    escapeXml "a&b<c>".toList = ("a&b<c>".toList).flatMap xmlEntity :=
  ⟨C9_freemind_serialization_deterministic.1 _ _ rfl,
   C9_freemind_serialization_deterministic.2.1 exampleLeaf 4 rfl,
   C9_freemind_serialization_deterministic.2.2.1 exampleLeaf,
   C9_freemind_serialization_deterministic.2.2.2 _⟩

/-- C10: `MindmapNode.from_dict` treats an explicit `"children": null`
exactly like an absent key — the parse succeeds and yields a node with an
empty children list — while every other non-list `children` value
(boolean, number, string, mapping) is rejected with the children
validation error. -/
theorem C10_fromDict_children_null :
    fromDict (Json.obj [("text", Json.str "x".toList), ("children", Json.null)]) =
      Except.ok (MindmapNode.mk "x".toList [] none none none) ∧
    fromDict (Json.obj [("text", Json.str "x".toList), ("children", Json.null)]) =
      fromDict (Json.obj [("text", Json.str "x".toList)]) ∧
    (∀ j : Json, j ≠ Json.null → (∀ xs, j ≠ Json.arr xs) →
      fromDict (Json.obj [("text", Json.str "x".toList), ("children", j)]) =
        Except.error NodeErr.badChildren) := by
  refine ⟨?_, ?_, ?_⟩
  · rw [fromDict.eq_def]
    simp [jsonGet, allowedNodeKeys, nodeLinkCheck, nodeColorCheck, nodePriorityCheck,
      show stripWS ['x'] = ['x'] from by decide]
  · rw [fromDict.eq_def, fromDict.eq_def]
    simp [jsonGet, allowedNodeKeys, nodeLinkCheck, nodeColorCheck, nodePriorityCheck,
      show stripWS ['x'] = ['x'] from by decide]
  · intro j hnull harr
    cases j with
    | null => exact absurd rfl hnull
    | arr xs => exact absurd rfl (harr xs)
    | bool b =>
      rw [fromDict.eq_def]
      simp [jsonGet, allowedNodeKeys, show stripWS ['x'] = ['x'] from by decide]
    | num n =>
      rw [fromDict.eq_def]
      simp [jsonGet, allowedNodeKeys, show stripWS ['x'] = ['x'] from by decide]
    | str s =>
      rw [fromDict.eq_def]
      simp [jsonGet, allowedNodeKeys, show stripWS ['x'] = ['x'] from by decide]
    | obj f =>
      rw [fromDict.eq_def]
      simp [jsonGet, allowedNodeKeys, show stripWS ['x'] = ['x'] from by decide]

theorem C10_witness :
    fromDict (Json.obj [("text", Json.str "x".toList), ("children", Json.str "no".toList)]) =
      Except.error NodeErr.badChildren :=
  C10_fromDict_children_null.2.2 (Json.str "no".toList) (by intro h; cases h)
    (by intro xs h; cases h)

end Ink2md

/-! ## Processing state (`src/cloud_monitor_pdf2md/state.py`).

The ledger is a Python dict `identifier -> {"name": ..., "timestamp": ...}`
modelled as an insertion-ordered association list; `assocSet` models dict
assignment (overwrite in place, append if new). -/

namespace Ink2md

def assocGet {α : Type} (l : List (String × α)) (k : String) : Option α :=
  match l with
  | [] => none
  | (k', v) :: rest => if k' = k then some v else assocGet rest k

def assocSet {α : Type} (k : String) (v : α) : List (String × α) → List (String × α)
  | [] => [(k, v)]
  | (k', v') :: rest => if k' = k then (k, v) :: rest else (k', v') :: assocSet k v rest

theorem assocGet_set_self {α : Type} (k : String) (v : α) (l : List (String × α)) :
    assocGet (assocSet k v l) k = some v := by
  induction l with
  | nil => simp [assocSet, assocGet]
  | cons kv rest ih =>
    obtain ⟨k', v'⟩ := kv
    by_cases h : k' = k <;> simp [assocSet, assocGet, h, ih]

theorem assocGet_set_other {α : Type} {k k2 : String} (v : α) (l : List (String × α))
    (h : k2 ≠ k) : assocGet (assocSet k v l) k2 = assocGet l k2 := by
  have h2 : ¬k = k2 := fun hh => h hh.symm
  induction l with
  | nil => simp [assocSet, assocGet, h2]
  | cons kv rest ih =>
    obtain ⟨k', v'⟩ := kv
    by_cases hk : k' = k
    · subst hk
      simp [assocSet, assocGet, h2]
    · simp only [assocSet, if_neg hk, assocGet, ih]

theorem assocSet_same {α : Type} {k : String} {v : α} {l : List (String × α)}
    (h : assocGet l k = some v) : assocSet k v l = l := by
  induction l with
  | nil => simp [assocGet] at h
  | cons kv rest ih =>
    obtain ⟨k', v'⟩ := kv
    by_cases hk : k' = k
    · subst hk
      simp [assocGet] at h
      simp [assocSet, h]
    · simp [assocGet, hk] at h
      simp [assocSet, hk, ih h]

structure LedgerEntry where
  name : List Char
  timestamp : Nat
deriving DecidableEq

abbrev Ledger := List (String × LedgerEntry)

/-- `ProcessingState.has_processed`: key membership in the persisted map. -/
def hasProcessed (st : Ledger) (id : String) : Bool := (assocGet st id).isSome

/-- The in-memory update of `ProcessingState.mark_processed`:
`processed[document_id] = {"name": name or document_id, "timestamp": now}`. -/
def markProcessed (st : Ledger) (id : String) (name : List Char) (now : Nat) : Ledger :=
  assocSet id ⟨if name.isEmpty then id.toList else name, now⟩ st

theorem hasProcessed_markProcessed_self (st : Ledger) (id : String) (name : List Char)
    (now : Nat) : hasProcessed (markProcessed st id name now) id = true := by
  simp [hasProcessed, markProcessed, assocGet_set_self]

theorem hasProcessed_markProcessed_mono {st : Ledger} {id : String} (id2 : String)
    (name : List Char) (now : Nat) (h : hasProcessed st id = true) :
    hasProcessed (markProcessed st id2 name now) id = true := by
  by_cases hk : id = id2
  · subst hk
    simp [hasProcessed, markProcessed, assocGet_set_self]
  · simpa [hasProcessed, markProcessed, assocGet_set_other _ _ hk] using h

theorem hasProcessed_markProcessed_of_ne {st : Ledger} {id id2 : String}
    (name : List Char) (now : Nat) (h : id ≠ id2) :
    hasProcessed (markProcessed st id2 name now) id = hasProcessed st id := by
  simp [hasProcessed, markProcessed, assocGet_set_other _ _ h]

/-! ## On-disk persistence of the ledger (`_write_state`) and C7's crash
model.  The filesystem is reduced to the two paths `_write_state` touches:
the real ledger path and its `.tmp` sibling. -/

structure LedgerFS where
  real : Option (List Char)
  tmp : Option (List Char)

/-- A deterministic rendering of the ledger as its JSON file content
(`json.dump({"processed": ...})`). -/
def serializeLedger (st : Ledger) : List Char :=
  "\x7b\"processed\": \x7b".toList ++
    (joinSep ", ".toList
      (st.map fun kv =>
        '"' :: kv.1.toList ++ "\": \x7b\"name\": \"".toList ++ kv.2.name ++
          "\", \"timestamp\": ".toList ++ (toString kv.2.timestamp).toList ++ "\x7d".toList)) ++
    "\x7d\x7d".toList

/-- First half of `_write_state`: write the serialized ledger to the temp
path. -/
def writeTmp (content : List Char) (fs : LedgerFS) : LedgerFS :=
  { fs with tmp := some content }

/-- Second half of `_write_state`: `tmp_path.replace(self.path)`, an atomic
rename of the temp file over the real path. -/
def renameTmp (fs : LedgerFS) : LedgerFS :=
  { real := fs.tmp, tmp := none }

/-- The crash points of one `mark_processed` persistence cycle. -/
inductive CrashPoint where
  | beforeTmpWrite
  | betweenWriteAndRename
  | completed

/-- `ProcessingState.mark_processed` with its on-disk effect, stopped at a
given crash point: update the in-memory map, write the full serialized
ledger to the temp file, rename it over the real path. -/
def markProcessedFS (st : Ledger) (fs : LedgerFS) (id : String) (name : List Char)
    (now : Nat) : CrashPoint → LedgerFS
  | .beforeTmpWrite => fs
  | .betweenWriteAndRename => writeTmp (serializeLedger (markProcessed st id name now)) fs
  | .completed => renameTmp (writeTmp (serializeLedger (markProcessed st id name now)) fs)

/-- C7: every `mark_processed` persists by writing the whole ledger to a
temp file and renaming it over the real path; a crash before the rename —
in particular between the temp-file write and the rename — leaves the
previously committed content under the real path byte-for-byte intact, and
hence still a parseable serialized ledger; only the completed rename
replaces it, atomically, with the serialization of the updated ledger. -/
theorem C7_atomic_ledger_persistence :
    ∀ (st prev : Ledger) (fs : LedgerFS) (id : String) (name : List Char) (now : Nat),
      fs.real = some (serializeLedger prev) →
      (markProcessedFS st fs id name now .betweenWriteAndRename).real =
          some (serializeLedger prev) ∧
      (markProcessedFS st fs id name now .beforeTmpWrite).real =
          some (serializeLedger prev) ∧
      (markProcessedFS st fs id name now .completed).real =
          some (serializeLedger (markProcessed st id name now)) := by
  intro st prev fs id name now h
  refine ⟨?_, h, rfl⟩
  simpa [markProcessedFS, writeTmp] using h

theorem C7_witness :
    (markProcessedFS [] ⟨some (serializeLedger []), none⟩ "doc-1" "Doc".toList 7
        .betweenWriteAndRename).real = some (serializeLedger []) :=
  (C7_atomic_ledger_persistence [] [] ⟨some (serializeLedger []), none⟩ "doc-1"
    "Doc".toList 7 rfl).1

end Ink2md

/-! ## Processors (`src/ink2md/processor.py`).

The external collaborators — connector, conversion backend, output
handler — are modelled as oracles returning `Except`, and each call one of
the processors makes is recorded in an event trace.  A Python exception is
an `Except.error` that, matching the source's absence of `try/except`
around the per-document body, aborts the whole `run_once` iteration. -/

namespace Ink2md

structure CloudDocument where
  identifier : String
  name : List Char
  modified_at : Option Nat := none

abbrev ByteStr := List Char

inductive PEvent where
  | fetch (id : String) (ok : Bool)
  | convert (id : String) (ok : Bool)
  | write (id : String) (ok : Bool)
  | record (id : String)
  | classify (id : String) (ok : Bool)
deriving DecidableEq

def PEvent.docId : PEvent → String
  | .fetch id _ => id
  | .convert id _ => id
  | .write id _ => id
  | .record id => id
  | .classify id _ => id

/-- The events that model a Python exception escaping a fetch, conversion
or output-write call (classification failures are caught by
`_select_pipeline` and are not aborts). -/
def PEvent.isAbort : PEvent → Bool
  | .fetch _ false => true
  | .convert _ false => true
  | .write _ false => true
  | _ => false

structure MarkdownEnv (ε : Type) where
  download : CloudDocument → Except ε ByteStr
  convert : CloudDocument → ByteStr → Except ε (List Char)
  write : CloudDocument → List Char → ByteStr → Except ε String

structure RunResult (ε : Type) where
  trace : List PEvent
  ledger : Ledger
  outcome : Except ε Nat

/-- `PDFProcessor.run_once`: for each listed document, skip if recorded,
else fetch, convert, write, and only then mark processed.  An error in any
of the three calls escapes immediately (no `try/except` in the source). -/
def pdfRunOnce {ε : Type} (env : MarkdownEnv ε) (now : Nat) (st : Ledger) :
    List CloudDocument → RunResult ε
  | [] => ⟨[], st, .ok 0⟩
  | d :: rest =>
    if hasProcessed st d.identifier then pdfRunOnce env now st rest
    else
      match env.download d with
      | .error e => ⟨[.fetch d.identifier false], st, .error e⟩
      | .ok bytes =>
        match env.convert d bytes with
        | .error e => ⟨[.fetch d.identifier true, .convert d.identifier false], st, .error e⟩
        | .ok md =>
          match env.write d md bytes with
          | .error e =>
            ⟨[.fetch d.identifier true, .convert d.identifier true,
              .write d.identifier false], st, .error e⟩
          | .ok _ =>
            let st2 := markProcessed st d.identifier d.name now
            let r := pdfRunOnce env now st2 rest
            ⟨.fetch d.identifier true :: .convert d.identifier true ::
                .write d.identifier true :: .record d.identifier :: r.trace,
             r.ledger,
             match r.outcome with
             | .ok n => .ok (n + 1)
             | .error e => .error e⟩

/-- `_has_mindmap_hashtag` from `src/ink2md/processor.py`. -/
def hasMindmapHashtag (name : List Char) (hashtags : List (List Char)) : Bool :=
  hashtags.any fun tag =>
    let normalized := lstripHash (toLowerStr tag)
    strContains (toLowerStr name) ('#' :: normalized) ||
      strContains (toLowerStr name) normalized

structure AgenticEnv (ε : Type) where
  download : CloudDocument → Except ε ByteStr
  classify : CloudDocument → ByteStr → Except ε (List Char)
  convert : CloudDocument → ByteStr → Except ε (List Char)
  extractMindmap : CloudDocument → ByteStr → Except ε Mindmap
  writeMarkdown : CloudDocument → List Char → ByteStr → Except ε String
  writeMindmap : CloudDocument → Mindmap → Except ε Unit

/-- `AgenticProcessor._select_pipeline`, instrumented with the classifier
calls it performs.  The hashtag fast path returns without consulting the
classifier; a classifier error is caught and defaults to `"markdown"`;
otherwise the decision is lowercased, stripped, and compared for equality
with `"mindmap"`. -/
def selectPipeline {ε : Type} (env : AgenticEnv ε) (hashtags : List (List Char))
    (d : CloudDocument) (bytes : ByteStr) : String × List PEvent :=
  if hasMindmapHashtag d.name hashtags then ("mindmap", [])
  else
    match env.classify d bytes with
    | .error _ => ("markdown", [.classify d.identifier false])
    | .ok decision =>
      (if stripWS (toLowerStr decision) = "mindmap".toList then "mindmap" else "markdown",
       [.classify d.identifier true])

/-- `processed + 1` on the count of a successful run, propagating an
error unchanged. -/
def bumpCount {ε : Type} : Except ε Nat → Except ε Nat
  | .ok n => .ok (n + 1)
  | .error e => .error e

/-- `AgenticProcessor.run_once`: fetch, route via `_select_pipeline`, run
the chosen pipeline's conversion and write, then mark processed. -/
def agenticRunOnce {ε : Type} (env : AgenticEnv ε) (hashtags : List (List Char))
    (now : Nat) (st : Ledger) : List CloudDocument → RunResult ε
  | [] => ⟨[], st, .ok 0⟩
  | d :: rest =>
    if hasProcessed st d.identifier then agenticRunOnce env hashtags now st rest
    else
      match env.download d with
      | .error e => ⟨[.fetch d.identifier false], st, .error e⟩
      | .ok bytes =>
        let sel := selectPipeline env hashtags d bytes
        if sel.1 = "mindmap" then
          match env.extractMindmap d bytes with
          | .error e =>
            ⟨.fetch d.identifier true :: sel.2 ++ [.convert d.identifier false],
             st, .error e⟩
          | .ok mm =>
            match env.writeMindmap d mm with
            | .error e =>
              ⟨.fetch d.identifier true :: sel.2 ++
                  [.convert d.identifier true, .write d.identifier false],
               st, .error e⟩
            | .ok _ =>
              let st2 := markProcessed st d.identifier d.name now
              let r := agenticRunOnce env hashtags now st2 rest
              ⟨.fetch d.identifier true :: sel.2 ++
                  (.convert d.identifier true :: .write d.identifier true ::
                    .record d.identifier :: r.trace),
               r.ledger, bumpCount r.outcome⟩
        else
          match env.convert d bytes with
          | .error e =>
            ⟨.fetch d.identifier true :: sel.2 ++ [.convert d.identifier false],
             st, .error e⟩
          | .ok md =>
            match env.writeMarkdown d md bytes with
            | .error e =>
              ⟨.fetch d.identifier true :: sel.2 ++
                  [.convert d.identifier true, .write d.identifier false],
               st, .error e⟩
            | .ok _ =>
              let st2 := markProcessed st d.identifier d.name now
              let r := agenticRunOnce env hashtags now st2 rest
              ⟨.fetch d.identifier true :: sel.2 ++
                  (.convert d.identifier true :: .write d.identifier true ::
                    .record d.identifier :: r.trace),
               r.ledger, bumpCount r.outcome⟩

end Ink2md

namespace Ink2md

theorem pdfRunOnce_ledger_mono {ε : Type} (env : MarkdownEnv ε) (now : Nat)
    (docs : List CloudDocument) :
    ∀ (st : Ledger) (id : String), hasProcessed st id = true →
      hasProcessed (pdfRunOnce env now st docs).ledger id = true := by
  induction docs with
  | nil => intro st id h; simpa [pdfRunOnce] using h
  | cons d rest ih =>
    intro st id h
    by_cases hp : hasProcessed st d.identifier
    · simpa [pdfRunOnce, hp] using ih st id h
    · cases hdl : env.download d with
      | error e => simpa [pdfRunOnce, hp, hdl] using h
      | ok bytes =>
        cases hcv : env.convert d bytes with
        | error e => simpa [pdfRunOnce, hp, hdl, hcv] using h
        | ok md =>
          cases hw : env.write d md bytes with
          | error e => simpa [pdfRunOnce, hp, hdl, hcv, hw] using h
          | ok p =>
            have h2 := hasProcessed_markProcessed_mono d.identifier d.name now h
            simpa [pdfRunOnce, hp, hdl, hcv, hw] using
              ih (markProcessed st d.identifier d.name now) id h2

theorem pdfRunOnce_ok_all_recorded {ε : Type} (env : MarkdownEnv ε) (now : Nat)
    (docs : List CloudDocument) :
    ∀ (st : Ledger), (∃ n, (pdfRunOnce env now st docs).outcome = Except.ok n) →
      ∀ d ∈ docs, hasProcessed (pdfRunOnce env now st docs).ledger d.identifier = true := by
  induction docs with
  | nil => intro st _ d hd; cases hd
  | cons d0 rest ih =>
    intro st hok d hd
    by_cases hp : hasProcessed st d0.identifier
    · rcases List.mem_cons.mp hd with rfl | hd'
      · simpa [pdfRunOnce, hp] using pdfRunOnce_ledger_mono env now rest st d.identifier hp
      · simp only [pdfRunOnce, hp, if_pos] at hok ⊢
        exact ih st hok d hd'
    · cases hdl : env.download d0 with
      | error e =>
        obtain ⟨n, hn⟩ := hok
        simp [pdfRunOnce, hp, hdl] at hn
      | ok bytes =>
        cases hcv : env.convert d0 bytes with
        | error e =>
          obtain ⟨n, hn⟩ := hok
          simp [pdfRunOnce, hp, hdl, hcv] at hn
        | ok md =>
          cases hw : env.write d0 md bytes with
          | error e =>
            obtain ⟨n, hn⟩ := hok
            simp [pdfRunOnce, hp, hdl, hcv, hw] at hn
          | ok p =>
            have hok' : ∃ n, (pdfRunOnce env now
                (markProcessed st d0.identifier d0.name now) rest).outcome = Except.ok n := by
              obtain ⟨n, hn⟩ := hok
              simp only [pdfRunOnce, hp, if_neg, hdl, hcv, hw] at hn
              cases hr : (pdfRunOnce env now
                  (markProcessed st d0.identifier d0.name now) rest).outcome with
              | ok m => exact ⟨m, rfl⟩
              | error e =>
                rw [hr] at hn
                simp at hn
            rcases List.mem_cons.mp hd with rfl | hd'
            · have hm := hasProcessed_markProcessed_self st d.identifier d.name now
              simpa [pdfRunOnce, hp, hdl, hcv, hw] using
                pdfRunOnce_ledger_mono env now rest _ d.identifier hm
            · simpa [pdfRunOnce, hp, hdl, hcv, hw] using ih _ hok' d hd'

theorem pdfRunOnce_no_events_of_processed {ε : Type} (env : MarkdownEnv ε) (now : Nat)
    (docs : List CloudDocument) :
    ∀ (st : Ledger) (id : String), hasProcessed st id = true →
      ∀ e ∈ (pdfRunOnce env now st docs).trace, e.docId ≠ id := by
  induction docs with
  | nil => intro st id _ e he; simp [pdfRunOnce] at he
  | cons d rest ih =>
    intro st id h e he
    by_cases hp : hasProcessed st d.identifier
    · rw [show (pdfRunOnce env now st (d :: rest)) = pdfRunOnce env now st rest by
        simp [pdfRunOnce, hp]] at he
      exact ih st id h e he
    · have hne : d.identifier ≠ id := fun hc => hp (hc ▸ h)
      cases hdl : env.download d with
      | error er =>
        simp [pdfRunOnce, hp, hdl] at he
        simp [he, PEvent.docId, hne]
      | ok bytes =>
        cases hcv : env.convert d bytes with
        | error er =>
          simp [pdfRunOnce, hp, hdl, hcv] at he
          rcases he with he | he <;> simp [he, PEvent.docId, hne]
        | ok md =>
          cases hw : env.write d md bytes with
          | error er =>
            simp [pdfRunOnce, hp, hdl, hcv, hw] at he
            rcases he with he | he | he <;> simp [he, PEvent.docId, hne]
          | ok p =>
            simp [pdfRunOnce, hp, hdl, hcv, hw] at he
            rcases he with he | he | he | he | he
            · simp [he, PEvent.docId, hne]
            · simp [he, PEvent.docId, hne]
            · simp [he, PEvent.docId, hne]
            · simp [he, PEvent.docId, hne]
            · exact ih _ id
                (hasProcessed_markProcessed_mono d.identifier d.name now h) e he

end Ink2md

namespace Ink2md

/-- C1: idempotent dedup for `PDFProcessor.run_once`.  If one run over the
connector's documents succeeds, then every listed document's identifier is
recorded; a second run over the same documents emits no event at all —
in particular no fetch, no conversion, no output write — for that
identifier (the skip transition is side-effect free), and the identifier
stays recorded after the second run. -/
theorem C1_idempotent_dedup :
    ∀ (ε : Type) (env : MarkdownEnv ε) (now₁ now₂ : Nat) (st : Ledger)
      (docs : List CloudDocument) (d : CloudDocument),
      d ∈ docs → (∃ n, (pdfRunOnce env now₁ st docs).outcome = Except.ok n) →
      hasProcessed (pdfRunOnce env now₁ st docs).ledger d.identifier = true ∧
      (∀ e ∈ (pdfRunOnce env now₂ (pdfRunOnce env now₁ st docs).ledger docs).trace,
        e.docId ≠ d.identifier) ∧
      hasProcessed
        (pdfRunOnce env now₂ (pdfRunOnce env now₁ st docs).ledger docs).ledger
        d.identifier = true := by
  intro ε env now₁ now₂ st docs d hd hok
  have h1 := pdfRunOnce_ok_all_recorded env now₁ docs st hok d hd
  exact ⟨h1,
    pdfRunOnce_no_events_of_processed env now₂ docs _ d.identifier h1,
    pdfRunOnce_ledger_mono env now₂ docs _ d.identifier h1⟩

def c1env : MarkdownEnv Unit :=
  ⟨fun _ => .ok [], fun _ _ => .ok "# Report\n".toList, fun _ _ _ => .ok "out.md"⟩

def c1doc : CloudDocument := ⟨"doc-1", "Report".toList, none⟩

theorem C1_witness :
    hasProcessed (pdfRunOnce c1env 0 [] [c1doc]).ledger c1doc.identifier = true ∧
    (∀ e ∈ (pdfRunOnce c1env 5 (pdfRunOnce c1env 0 [] [c1doc]).ledger [c1doc]).trace,
      e.docId ≠ c1doc.identifier) ∧
    hasProcessed
      (pdfRunOnce c1env 5 (pdfRunOnce c1env 0 [] [c1doc]).ledger [c1doc]).ledger
      c1doc.identifier = true :=
  C1_idempotent_dedup Unit c1env 0 5 [] [c1doc] c1doc (by simp) ⟨1, rfl⟩

def c3env : MarkdownEnv Unit :=
  ⟨fun d => if d.identifier = "doc-1" then .error () else .ok [],
   fun _ _ => .ok [], fun _ _ _ => .ok "out.md"⟩

def c3doc1 : CloudDocument := ⟨"doc-1", "First".toList, none⟩

def c3doc2 : CloudDocument := ⟨"doc-2", "Second".toList, none⟩

/-- C3 counterexample: with two fresh documents where the connector's
`download_pdf` raises on the first, `run_once` stops at that error — the
trace holds only the failed fetch of `doc-1`, the error escapes
`run_once`, and the second document is never fetched, converted or
written.  This refutes the claim that the same poll iteration continues
with the next document. -/
theorem C3_counterexample :
    (pdfRunOnce c3env 0 [] [c3doc1, c3doc2]).trace = [PEvent.fetch "doc-1" false] ∧
    (pdfRunOnce c3env 0 [] [c3doc1, c3doc2]).outcome = Except.error () ∧
    ∀ e ∈ (pdfRunOnce c3env 0 [] [c3doc1, c3doc2]).trace, e.docId ≠ "doc-2" := by
  refine ⟨rfl, rfl, ?_⟩
  intro e he
  simp [pdfRunOnce, c3env, c3doc1, c3doc2, hasProcessed, assocGet] at he
  simp [he, PEvent.docId]

/-- C3 amended: if the connector's `download_pdf`, the conversion, or the
output write raises during `PDFProcessor.run_once`, no ledger entry is
written for the failed document, but — the source has no per-document
`try/except` — the error escapes `run_once`, whose trace ends at the
failed call: the remaining documents of that poll iteration are not
processed. -/
theorem C3_amended_fail_aborts_run :
    ∀ (ε : Type) (env : MarkdownEnv ε) (now : Nat) (st : Ledger)
      (docs : List CloudDocument) (e : ε),
      (pdfRunOnce env now st docs).outcome = Except.error e →
      ∃ pre ev, (pdfRunOnce env now st docs).trace = pre ++ [ev] ∧
        ev.isAbort = true ∧
        hasProcessed (pdfRunOnce env now st docs).ledger ev.docId = false := by
  intro ε env now st docs e
  induction docs generalizing st with
  | nil => intro h; simp [pdfRunOnce] at h
  | cons d rest ih =>
    intro h
    by_cases hp : hasProcessed st d.identifier
    · simp only [pdfRunOnce, hp, if_pos] at h ⊢
      exact ih st h
    · cases hdl : env.download d with
      | error er =>
        refine ⟨[], .fetch d.identifier false, ?_, rfl, ?_⟩
        · simp [pdfRunOnce, hp, hdl]
        · simpa [pdfRunOnce, hp, hdl, PEvent.docId] using hp
      | ok bytes =>
        cases hcv : env.convert d bytes with
        | error er =>
          refine ⟨[.fetch d.identifier true], .convert d.identifier false, ?_, rfl, ?_⟩
          · simp [pdfRunOnce, hp, hdl, hcv]
          · simpa [pdfRunOnce, hp, hdl, hcv, PEvent.docId] using hp
        | ok md =>
          cases hw : env.write d md bytes with
          | error er =>
            refine ⟨[.fetch d.identifier true, .convert d.identifier true],
              .write d.identifier false, ?_, rfl, ?_⟩
            · simp [pdfRunOnce, hp, hdl, hcv, hw]
            · simpa [pdfRunOnce, hp, hdl, hcv, hw, PEvent.docId] using hp
          | ok p =>
            have hrec : (pdfRunOnce env now
                (markProcessed st d.identifier d.name now) rest).outcome =
                Except.error e := by
              simp only [pdfRunOnce, hp, if_neg, hdl, hcv, hw] at h
              revert h
              cases (pdfRunOnce env now
                  (markProcessed st d.identifier d.name now) rest).outcome with
              | ok m => intro h; simp at h
              | error e2 => intro h; simp at h; simp [h]
            obtain ⟨pre, ev, htr, hab, hld⟩ := ih _ hrec
            refine ⟨.fetch d.identifier true :: .convert d.identifier true ::
              .write d.identifier true :: .record d.identifier :: pre, ev, ?_, hab, ?_⟩
            · simp [pdfRunOnce, hp, hdl, hcv, hw, htr]
            · simpa [pdfRunOnce, hp, hdl, hcv, hw] using hld

theorem C3_amended_witness :
    ∃ pre ev, (pdfRunOnce c3env 0 [] [c3doc1, c3doc2]).trace = pre ++ [ev] ∧
      ev.isAbort = true ∧
      hasProcessed (pdfRunOnce c3env 0 [] [c3doc1, c3doc2]).ledger ev.docId = false :=
  C3_amended_fail_aborts_run Unit c3env 0 [] [c3doc1, c3doc2] () rfl

end Ink2md

namespace Ink2md

def isRecordEvent : PEvent → Bool
  | .record _ => true
  | _ => false

/-- Scan of a trace checking that every `record` event is immediately
preceded by a successful `write` event for the same document. -/
def recAfterWrite (prev : Option PEvent) : List PEvent → Bool
  | [] => true
  | e :: rest =>
    (match e with
     | .record id => decide (prev = some (.write id true))
     | _ => true) && recAfterWrite (some e) rest

def headNotRecord : List PEvent → Bool
  | [] => true
  | e :: _ => !isRecordEvent e

theorem recAfterWrite_prev_irrel {tr : List PEvent} (h : headNotRecord tr = true)
    (p q : Option PEvent) : recAfterWrite p tr = recAfterWrite q tr := by
  cases tr with
  | nil => rfl
  | cons e rest =>
    cases e with
    | record id => simp [headNotRecord, isRecordEvent] at h
    | fetch id ok => simp [recAfterWrite]
    | convert id ok => simp [recAfterWrite]
    | write id ok => simp [recAfterWrite]
    | classify id ok => simp [recAfterWrite]

theorem pdfRunOnce_headNotRecord {ε : Type} (env : MarkdownEnv ε) (now : Nat)
    (docs : List CloudDocument) :
    ∀ st : Ledger, headNotRecord (pdfRunOnce env now st docs).trace = true := by
  induction docs with
  | nil => intro st; simp [pdfRunOnce, headNotRecord]
  | cons d rest ih =>
    intro st
    by_cases hp : hasProcessed st d.identifier
    · simpa [pdfRunOnce, hp] using ih st
    · cases hdl : env.download d with
      | error e => simp [pdfRunOnce, hp, hdl, headNotRecord, isRecordEvent]
      | ok bytes =>
        cases hcv : env.convert d bytes with
        | error e => simp [pdfRunOnce, hp, hdl, hcv, headNotRecord, isRecordEvent]
        | ok md =>
          cases hw : env.write d md bytes with
          | error e =>
            simp [pdfRunOnce, hp, hdl, hcv, hw, headNotRecord, isRecordEvent]
          | ok p =>
            simp [pdfRunOnce, hp, hdl, hcv, hw, headNotRecord, isRecordEvent]

theorem pdfRunOnce_recAfterWrite {ε : Type} (env : MarkdownEnv ε) (now : Nat)
    (docs : List CloudDocument) :
    ∀ st : Ledger, recAfterWrite none (pdfRunOnce env now st docs).trace = true := by
  induction docs with
  | nil => intro st; simp [pdfRunOnce, recAfterWrite]
  | cons d rest ih =>
    intro st
    by_cases hp : hasProcessed st d.identifier
    · simpa [pdfRunOnce, hp] using ih st
    · cases hdl : env.download d with
      | error e => simp [pdfRunOnce, hp, hdl, recAfterWrite]
      | ok bytes =>
        cases hcv : env.convert d bytes with
        | error e => simp [pdfRunOnce, hp, hdl, hcv, recAfterWrite]
        | ok md =>
          cases hw : env.write d md bytes with
          | error e => simp [pdfRunOnce, hp, hdl, hcv, hw, recAfterWrite]
          | ok p =>
            have hh := pdfRunOnce_headNotRecord env now rest
              (markProcessed st d.identifier d.name now)
            have hir := recAfterWrite_prev_irrel hh
              (some (.record d.identifier)) none
            simp [pdfRunOnce, hp, hdl, hcv, hw, recAfterWrite, hir]
            exact ih _

theorem pdfRunOnce_fail_no_ledger {ε : Type} (env : MarkdownEnv ε) (now : Nat)
    (docs : List CloudDocument) :
    ∀ (st : Ledger) (id : String),
      (PEvent.fetch id false ∈ (pdfRunOnce env now st docs).trace ∨
       PEvent.convert id false ∈ (pdfRunOnce env now st docs).trace ∨
       PEvent.write id false ∈ (pdfRunOnce env now st docs).trace) →
      hasProcessed (pdfRunOnce env now st docs).ledger id = false := by
  induction docs with
  | nil => intro st id h; simp [pdfRunOnce] at h
  | cons d rest ih =>
    intro st id h
    by_cases hp : hasProcessed st d.identifier
    · simp only [pdfRunOnce, hp, if_pos] at h ⊢
      exact ih st id h
    · cases hdl : env.download d with
      | error e =>
        simp only [pdfRunOnce, hp, if_neg, hdl] at h ⊢
        simp at h
        rcases h with ⟨rfl, _⟩
        simpa using hp
      | ok bytes =>
        cases hcv : env.convert d bytes with
        | error e =>
          simp only [pdfRunOnce, hp, if_neg, hdl, hcv] at h ⊢
          simp at h
          rcases h with ⟨rfl, _⟩
          simpa using hp
        | ok md =>
          cases hw : env.write d md bytes with
          | error e =>
            simp only [pdfRunOnce, hp, if_neg, hdl, hcv, hw] at h ⊢
            simp at h
            rcases h with ⟨rfl, _⟩
            simpa using hp
          | ok p =>
            simp only [pdfRunOnce, hp, if_neg, hdl, hcv, hw] at h ⊢
            simp at h
            rcases h with h | h | h
            · exact ih _ id (Or.inl h)
            · exact ih _ id (Or.inr (Or.inl h))
            · exact ih _ id (Or.inr (Or.inr h))

end Ink2md

namespace Ink2md

theorem selectPipeline_snd {ε : Type} (env : AgenticEnv ε) (hashtags : List (List Char))
    (d : CloudDocument) (bytes : ByteStr) :
    (selectPipeline env hashtags d bytes).2 = [] ∨
      ∃ b, (selectPipeline env hashtags d bytes).2 = [PEvent.classify d.identifier b] := by
  unfold selectPipeline
  by_cases hh : hasMindmapHashtag d.name hashtags
  · simp [hh]
  · cases hc : env.classify d bytes with
    | error e => simp [hh, hc]
    | ok dec => simp [hh, hc]

theorem agenticRunOnce_headNotRecord {ε : Type} (env : AgenticEnv ε)
    (hashtags : List (List Char)) (now : Nat) (docs : List CloudDocument) :
    ∀ st : Ledger, headNotRecord (agenticRunOnce env hashtags now st docs).trace = true := by
  induction docs with
  | nil => intro st; simp [agenticRunOnce, headNotRecord]
  | cons d rest ih =>
    intro st
    by_cases hp : hasProcessed st d.identifier
    · simpa [agenticRunOnce, hp] using ih st
    · cases hdl : env.download d with
      | error e => simp [agenticRunOnce, hp, hdl, headNotRecord, isRecordEvent]
      | ok bytes =>
        by_cases hroute : (selectPipeline env hashtags d bytes).1 = "mindmap"
        · cases hx : env.extractMindmap d bytes with
          | error e =>
            simp [agenticRunOnce, hp, hdl, hroute, hx, headNotRecord, isRecordEvent]
          | ok mm =>
            cases hwmm : env.writeMindmap d mm with
            | error e =>
              simp [agenticRunOnce, hp, hdl, hroute, hx, hwmm, headNotRecord, isRecordEvent]
            | ok u =>
              simp [agenticRunOnce, hp, hdl, hroute, hx, hwmm, headNotRecord, isRecordEvent]
        · cases hcv : env.convert d bytes with
          | error e =>
            simp [agenticRunOnce, hp, hdl, hroute, hcv, headNotRecord, isRecordEvent]
          | ok md =>
            cases hwmd : env.writeMarkdown d md bytes with
            | error e =>
              simp [agenticRunOnce, hp, hdl, hroute, hcv, hwmd, headNotRecord, isRecordEvent]
            | ok p =>
              simp [agenticRunOnce, hp, hdl, hroute, hcv, hwmd, headNotRecord, isRecordEvent]

theorem recAfterWrite_classifyChunk (p : Option PEvent) (cev : List PEvent)
    (id : String) (tail : List PEvent)
    (hc : cev = [] ∨ ∃ b, cev = [PEvent.classify id b])
    (htail : headNotRecord tail = true)
    (hrest : recAfterWrite none tail = true) :
    recAfterWrite p (PEvent.fetch id true :: cev ++
      (PEvent.convert id true :: PEvent.write id true ::
        PEvent.record id :: tail)) = true := by
  have hir := recAfterWrite_prev_irrel htail (some (PEvent.record id)) none
  rcases hc with rfl | ⟨b, rfl⟩ <;>
    simp [recAfterWrite, hir, hrest]

theorem agenticRunOnce_recAfterWrite {ε : Type} (env : AgenticEnv ε)
    (hashtags : List (List Char)) (now : Nat) (docs : List CloudDocument) :
    ∀ st : Ledger, recAfterWrite none (agenticRunOnce env hashtags now st docs).trace = true := by
  induction docs with
  | nil => intro st; simp [agenticRunOnce, recAfterWrite]
  | cons d rest ih =>
    intro st
    have hsel := fun bytes => selectPipeline_snd env hashtags d bytes
    by_cases hp : hasProcessed st d.identifier
    · simpa [agenticRunOnce, hp] using ih st
    · cases hdl : env.download d with
      | error e => simp [agenticRunOnce, hp, hdl, recAfterWrite]
      | ok bytes =>
        have hh := agenticRunOnce_headNotRecord env hashtags now rest
          (markProcessed st d.identifier d.name now)
        have hchunk := recAfterWrite_classifyChunk none
          (selectPipeline env hashtags d bytes).2 d.identifier
          (agenticRunOnce env hashtags now
            (markProcessed st d.identifier d.name now) rest).trace
          (hsel bytes) hh (ih _)
        by_cases hroute : (selectPipeline env hashtags d bytes).1 = "mindmap"
        · cases hx : env.extractMindmap d bytes with
          | error e =>
            rcases hsel bytes with hs | ⟨b, hs⟩ <;>
              simp [agenticRunOnce, hp, hdl, hroute, hx, hs, recAfterWrite]
          | ok mm =>
            cases hwmm : env.writeMindmap d mm with
            | error e =>
              rcases hsel bytes with hs | ⟨b, hs⟩ <;>
                simp [agenticRunOnce, hp, hdl, hroute, hx, hwmm, hs, recAfterWrite]
            | ok u =>
              simpa [agenticRunOnce, hp, hdl, hroute, hx, hwmm] using hchunk
        · cases hcv : env.convert d bytes with
          | error e =>
            rcases hsel bytes with hs | ⟨b, hs⟩ <;>
              simp [agenticRunOnce, hp, hdl, hroute, hcv, hs, recAfterWrite]
          | ok md =>
            cases hwmd : env.writeMarkdown d md bytes with
            | error e =>
              rcases hsel bytes with hs | ⟨b, hs⟩ <;>
                simp [agenticRunOnce, hp, hdl, hroute, hcv, hwmd, hs, recAfterWrite]
            | ok p =>
              simpa [agenticRunOnce, hp, hdl, hroute, hcv, hwmd] using hchunk

end Ink2md

namespace Ink2md

theorem agenticRunOnce_fail_no_ledger {ε : Type} (env : AgenticEnv ε)
    (hashtags : List (List Char)) (now : Nat) (docs : List CloudDocument) :
    ∀ (st : Ledger) (id : String),
      (PEvent.fetch id false ∈ (agenticRunOnce env hashtags now st docs).trace ∨
       PEvent.convert id false ∈ (agenticRunOnce env hashtags now st docs).trace ∨
       PEvent.write id false ∈ (agenticRunOnce env hashtags now st docs).trace) →
      hasProcessed (agenticRunOnce env hashtags now st docs).ledger id = false := by
  induction docs with
  | nil => intro st id h; simp [agenticRunOnce] at h
  | cons d rest ih =>
    intro st id h
    have hsel := selectPipeline_snd env hashtags d
    by_cases hp : hasProcessed st d.identifier
    · simp only [agenticRunOnce, hp, if_pos] at h ⊢
      exact ih st id h
    · cases hdl : env.download d with
      | error e =>
        simp only [agenticRunOnce, hp, if_neg, hdl] at h ⊢
        simp at h
        rcases h with ⟨rfl, _⟩
        simpa using hp
      | ok bytes =>
        by_cases hroute : (selectPipeline env hashtags d bytes).1 = "mindmap"
        · cases hx : env.extractMindmap d bytes with
          | error e =>
            rcases hsel bytes with hs | ⟨b, hs⟩ <;>
              · simp only [agenticRunOnce, hp, if_neg, hdl, hroute, if_pos, hx, hs] at h ⊢
                simp at h
                rcases h with ⟨rfl, _⟩
                simpa using hp
          | ok mm =>
            cases hwmm : env.writeMindmap d mm with
            | error e =>
              rcases hsel bytes with hs | ⟨b, hs⟩ <;>
                · simp only [agenticRunOnce, hp, if_neg, hdl, hroute, if_pos, hx, hwmm, hs] at h ⊢
                  simp at h
                  rcases h with ⟨rfl, _⟩
                  simpa using hp
            | ok u =>
              rcases hsel bytes with hs | ⟨b, hs⟩ <;>
                · simp only [agenticRunOnce, hp, if_neg, hdl, hroute, if_pos, hx, hwmm, hs] at h ⊢
                  simp at h
                  rcases h with h | h | h
                  · exact ih _ id (Or.inl h)
                  · exact ih _ id (Or.inr (Or.inl h))
                  · exact ih _ id (Or.inr (Or.inr h))
        · cases hcv : env.convert d bytes with
          | error e =>
            rcases hsel bytes with hs | ⟨b, hs⟩ <;>
              · simp only [agenticRunOnce, hp, if_neg, hdl, hroute, if_neg, hcv, hs] at h ⊢
                simp at h
                rcases h with ⟨rfl, _⟩
                simpa using hp
          | ok md =>
            cases hwmd : env.writeMarkdown d md bytes with
            | error e =>
              rcases hsel bytes with hs | ⟨b, hs⟩ <;>
                · simp only [agenticRunOnce, hp, if_neg, hdl, hroute, if_neg, hcv, hwmd, hs] at h ⊢
                  simp at h
                  rcases h with ⟨rfl, _⟩
                  simpa using hp
            | ok p =>
              rcases hsel bytes with hs | ⟨b, hs⟩ <;>
                · simp only [agenticRunOnce, hp, if_neg, hdl, hroute, if_neg, hcv, hwmd, hs] at h ⊢
                  simp at h
                  rcases h with h | h | h
                  · exact ih _ id (Or.inl h)
                  · exact ih _ id (Or.inr (Or.inl h))
                  · exact ih _ id (Or.inr (Or.inr h))

end Ink2md

namespace Ink2md

/-- C2: WRITTEN-before-RECORDED.  In every execution of
`PDFProcessor.run_once` or `AgenticProcessor.run_once`, each `record`
event (the `mark_processed` call) is immediately preceded in the trace by
a successful output-handler write for the same document; and whenever a
fetch, conversion or write raises for a document, that document has no
ledger entry when the run ends. -/
theorem C2_written_before_recorded :
    (∀ (ε : Type) (env : MarkdownEnv ε) (now : Nat) (st : Ledger)
      (docs : List CloudDocument),
      recAfterWrite none (pdfRunOnce env now st docs).trace = true) ∧
    (∀ (ε : Type) (env : AgenticEnv ε) (hashtags : List (List Char)) (now : Nat)
      (st : Ledger) (docs : List CloudDocument),
      recAfterWrite none (agenticRunOnce env hashtags now st docs).trace = true) ∧
    (∀ (ε : Type) (env : MarkdownEnv ε) (now : Nat) (st : Ledger)
      (docs : List CloudDocument) (id : String),
      (PEvent.fetch id false ∈ (pdfRunOnce env now st docs).trace ∨
       PEvent.convert id false ∈ (pdfRunOnce env now st docs).trace ∨
       PEvent.write id false ∈ (pdfRunOnce env now st docs).trace) →
      hasProcessed (pdfRunOnce env now st docs).ledger id = false) ∧
    (∀ (ε : Type) (env : AgenticEnv ε) (hashtags : List (List Char)) (now : Nat)
      (st : Ledger) (docs : List CloudDocument) (id : String),
      (PEvent.fetch id false ∈ (agenticRunOnce env hashtags now st docs).trace ∨
       PEvent.convert id false ∈ (agenticRunOnce env hashtags now st docs).trace ∨
       PEvent.write id false ∈ (agenticRunOnce env hashtags now st docs).trace) →
      hasProcessed (agenticRunOnce env hashtags now st docs).ledger id = false) :=
  ⟨fun ε env now st docs => pdfRunOnce_recAfterWrite env now docs st,
   fun ε env hashtags now st docs => agenticRunOnce_recAfterWrite env hashtags now docs st,
   fun ε env now st docs id h => pdfRunOnce_fail_no_ledger env now docs st id h,
   fun ε env hashtags now st docs id h =>
     agenticRunOnce_fail_no_ledger env hashtags now docs st id h⟩

theorem C2_witness :
    recAfterWrite none (pdfRunOnce c1env 0 [] [c1doc]).trace = true ∧
    hasProcessed (pdfRunOnce c3env 0 [] [c3doc1, c3doc2]).ledger "doc-1" = false :=
  ⟨C2_written_before_recorded.1 Unit c1env 0 [] [c1doc],
   C2_written_before_recorded.2.2.1 Unit c3env 0 [] [c3doc1, c3doc2] "doc-1"
     (Or.inl (by
       rw [show (pdfRunOnce c3env 0 [] [c3doc1, c3doc2]).trace =
         [PEvent.fetch "doc-1" false] from rfl]
       exact List.mem_singleton.mpr rfl))⟩

end Ink2md

namespace Ink2md

/-- An agentic environment whose classifier always answers `answer` and
whose other collaborators succeed trivially. -/
def classifierEnv (answer : List Char) : AgenticEnv Unit :=
  ⟨fun _ => .ok [], fun _ _ => .ok answer, fun _ _ => .ok [],
   fun _ _ => .ok ⟨.mk ['r'] [] none none none⟩,
   fun _ _ _ => .ok "out.md", fun _ _ => .ok ()⟩

def defaultHashtags : List (List Char) := ["mm".toList, "mindmap".toList]

def c5doc : CloudDocument := ⟨"doc-5", "general notes".toList, none⟩

/-- C5 counterexample: the claim says routing goes to mindmap iff the
normalized classifier answer CONTAINS the substring `"mindmap"`.  For the
answer `"use a mindmap"` — which does contain `"mindmap"` — on a document
with no routing hashtag, `_select_pipeline` nevertheless routes to
markdown, because the source compares the lowercased, stripped answer
for EQUALITY with `"mindmap"`. -/
theorem C5_counterexample :
    strContains (toLowerStr "use a mindmap".toList) "mindmap".toList = true ∧
    selectPipeline (classifierEnv "use a mindmap".toList) defaultHashtags c5doc [] =
      ("markdown", [PEvent.classify "doc-5" true]) := by
  constructor
  · decide
  · decide

/-- C5 amended: for a document missing the hashtag fast path whose
classification succeeds, `_select_pipeline` calls the classifier exactly
once and routes to mindmap iff the answer, lowercased and stripped of
surrounding whitespace, is EXACTLY `"mindmap"`; every other answer routes
to markdown. -/
theorem C5_amended_classifier_routing :
    ∀ (ε : Type) (env : AgenticEnv ε) (hashtags : List (List Char))
      (d : CloudDocument) (bytes : ByteStr) (decision : List Char),
      hasMindmapHashtag d.name hashtags = false →
      env.classify d bytes = Except.ok decision →
      ((selectPipeline env hashtags d bytes).1 = "mindmap" ↔
        stripWS (toLowerStr decision) = "mindmap".toList) ∧
      (selectPipeline env hashtags d bytes).2 = [PEvent.classify d.identifier true] := by
  intro ε env hashtags d bytes decision hh hc
  by_cases hdec : stripWS (toLowerStr decision) = "mindmap".toList
  · simp [selectPipeline, hh, hc, hdec]
  · simp [selectPipeline, hh, hc, hdec]

theorem C5_amended_witness :
    ((selectPipeline (classifierEnv " MindMap ".toList) defaultHashtags c5doc []).1 =
        "mindmap" ↔
      stripWS (toLowerStr " MindMap ".toList) = "mindmap".toList) ∧
    (selectPipeline (classifierEnv " MindMap ".toList) defaultHashtags c5doc []).2 =
      [PEvent.classify "doc-5" true] :=
  C5_amended_classifier_routing Unit (classifierEnv " MindMap ".toList) defaultHashtags
    c5doc [] " MindMap ".toList (by decide) rfl

/-- C6: the hashtag fast path.  If a document's display name contains a
configured hashtag token — matched case-insensitively, with or without
the leading `#` — then `_select_pipeline` routes it to the mindmap
pipeline and performs no classifier call at all. -/
theorem C6_hashtag_fast_path :
    ∀ (ε : Type) (env : AgenticEnv ε) (hashtags : List (List Char))
      (d : CloudDocument) (bytes : ByteStr) (tag : List Char),
      tag ∈ hashtags →
      (strContains (toLowerStr d.name) ('#' :: lstripHash (toLowerStr tag)) = true ∨
       strContains (toLowerStr d.name) (lstripHash (toLowerStr tag)) = true) →
      selectPipeline env hashtags d bytes = ("mindmap", []) := by
  intro ε env hashtags d bytes tag htag hcontains
  have hh : hasMindmapHashtag d.name hashtags = true := by
    unfold hasMindmapHashtag
    rw [List.any_eq_true]
    refine ⟨tag, htag, ?_⟩
    rcases hcontains with h | h <;> simp [h]
  simp [selectPipeline, hh]

def c6doc : CloudDocument := ⟨"doc-6", "sketch #mm".toList, none⟩

theorem C6_witness :
    selectPipeline (classifierEnv "markdown".toList) defaultHashtags c6doc [] =
      ("mindmap", []) :=
  C6_hashtag_fast_path Unit (classifierEnv "markdown".toList) defaultHashtags c6doc []
    "mm".toList (by simp [defaultHashtags]) (Or.inl (by decide))

end Ink2md

/-! ## Output naming (`MarkdownOutputHandler._build_basename`,
`_sanitize_name`, `_determine_timestamp_suffix` in `src/ink2md/output.py`).

Timestamps are modelled as microseconds since the Unix epoch (Python
`datetime` resolution); `fmtTimestamp` models
`strftime("%Y%m%d%H%M%S")` on the UTC instant via the standard
civil-from-days conversion, discarding the sub-second part exactly as
`strftime` does. -/

namespace Ink2md

def isSafeFilenameChar (c : Char) : Bool :=
  ('A' ≤ c && c ≤ 'Z') || ('a' ≤ c && c ≤ 'z') || ('0' ≤ c && c ≤ '9') ||
    c = '.' || c = '_' || c = '-'

/-- Single pass of `re.sub(r"[^A-Za-z0-9._-]+", "-", name)`: the flag
records whether the previous character was part of an unsafe run, so
every maximal run of unsafe characters becomes a single hyphen. -/
def collapseAux : Bool → List Char → List Char
  | _, [] => []
  | inRun, c :: rest =>
    if isSafeFilenameChar c then c :: collapseAux false rest
    else if inRun then collapseAux true rest
    else '-' :: collapseAux true rest

/-- `re.sub(r"[^A-Za-z0-9._-]+", "-", name)`. -/
def collapseUnsafe (l : List Char) : List Char := collapseAux false l

/-- `_sanitize_name`: collapse, strip hyphens from both ends, fall back to
`"document"` when empty. -/
def sanitizeName (name : List Char) : List Char :=
  let safe := stripHyphens (collapseUnsafe name)
  if safe.isEmpty then "document".toList else safe

/-- Gregorian date from a day count since 1970-01-01 (the standard
civil-from-days algorithm), giving `(year, month, day)`. -/
def civilFromDays (days : Nat) : Nat × Nat × Nat :=
  let z := days + 719468
  let era := z / 146097
  let doe := z % 146097
  let yoe := (doe - doe / 1460 + doe / 36524 - doe / 146096) / 365
  let y := yoe + era * 400
  let doy := doe - (365 * yoe + yoe / 4 - yoe / 100)
  let mp := (5 * doy + 2) / 153
  let dd := doy - (153 * mp + 2) / 5 + 1
  let m := if mp < 10 then mp + 3 else mp - 9
  (if m ≤ 2 then y + 1 else y, m, dd)

def padNum (width n : Nat) : List Char :=
  let s := (toString n).toList
  List.replicate (width - s.length) '0' ++ s

/-- `strftime("%Y%m%d%H%M%S")` on a UTC instant given in microseconds
since the epoch: the sub-second part is discarded. -/
def fmtTimestamp (usec : Nat) : List Char :=
  let sec := usec / 1000000
  let days := sec / 86400
  let rem := sec % 86400
  let ymd := civilFromDays days
  padNum 4 ymd.1 ++ padNum 2 ymd.2.1 ++ padNum 2 ymd.2.2 ++
    padNum 2 (rem / 3600) ++ padNum 2 (rem % 3600 / 60) ++ padNum 2 (rem % 60)

/-- `_determine_timestamp_suffix`: the document's `modified_at` when
present (converted to UTC), else the wall clock. -/
def determineTimestampSuffix (modified_at : Option Nat) (now : Nat) : List Char :=
  fmtTimestamp (modified_at.getD now)

/-- `_build_basename`: sanitized display name, a hyphen, the timestamp
suffix. -/
def buildBasename (name : List Char) (modified_at : Option Nat) (now : Nat) : List Char :=
  sanitizeName name ++ '-' :: determineTimestampSuffix modified_at now

end Ink2md

namespace Ink2md

theorem mem_dropWhile_imp {q : Char → Bool} {x : Char} :
    ∀ {l : List Char}, x ∈ l.dropWhile q → x ∈ l := by
  intro l
  induction l with
  | nil => intro h; simpa [List.dropWhile] using h
  | cons c rest ih =>
    intro h
    by_cases hq : q c
    · simp only [List.dropWhile, hq] at h
      exact List.mem_cons_of_mem c (ih h)
    · simpa [List.dropWhile, hq] using h

theorem mem_stripHyphens_imp {x : Char} {l : List Char}
    (h : x ∈ stripHyphens l) : x ∈ l := by
  unfold stripHyphens at h
  rw [List.mem_reverse] at h
  have h2 := mem_dropWhile_imp h
  rw [List.mem_reverse] at h2
  exact mem_dropWhile_imp h2

theorem collapseAux_all_safe :
    ∀ (l : List Char) (b : Bool), ∀ x ∈ collapseAux b l, isSafeFilenameChar x = true := by
  intro l
  induction l with
  | nil => intro b x hx; simp [collapseAux] at hx
  | cons c rest ih =>
    intro b x hx
    by_cases hsafe : isSafeFilenameChar c
    · rw [collapseAux, if_pos hsafe] at hx
      rcases List.mem_cons.mp hx with rfl | hx'
      · exact hsafe
      · exact ih false x hx'
    · rw [collapseAux, if_neg hsafe] at hx
      cases b with
      | true => exact ih true x (by simpa using hx)
      | false =>
        rcases List.mem_cons.mp (by simpa using hx) with rfl | hx'
        · decide
        · exact ih true x hx'

theorem collapseUnsafe_all_safe :
    ∀ l : List Char, ∀ x ∈ collapseUnsafe l, isSafeFilenameChar x = true :=
  fun l => collapseAux_all_safe l false

theorem sanitizeName_all_safe (name : List Char) :
    ∀ x ∈ sanitizeName name, isSafeFilenameChar x = true := by
  intro x hx
  unfold sanitizeName at hx
  by_cases he : (stripHyphens (collapseUnsafe name)).isEmpty
  · simp only [he, if_pos] at hx
    revert hx
    revert x
    decide
  · simp only [he, if_neg, Bool.false_eq_true, if_false] at hx
    exact collapseUnsafe_all_safe name x (mem_stripHyphens_imp hx)

theorem sanitizeName_ne_nil (name : List Char) : sanitizeName name ≠ [] := by
  unfold sanitizeName
  by_cases he : (stripHyphens (collapseUnsafe name)).isEmpty
  · simp [he]
  · simp only [he, Bool.false_eq_true, if_false]
    intro hcontra
    rw [hcontra] at he
    exact he rfl

/-- C8 counterexample: two documents with the same name and different
`modified_at` instants — 1970-01-01T00:00:00.0Z and
1970-01-01T00:00:00.5Z — receive the SAME base filename, because
`strftime("%Y%m%d%H%M%S")` discards sub-second precision.  This refutes
the collision-freedom part of the claim. -/
theorem C8_counterexample :
    (0 : Nat) ≠ 500000 ∧
    buildBasename "Report".toList (some 0) 111 =
      buildBasename "Report".toList (some 500000) 222 := by
  constructor
  · decide
  · have hf : fmtTimestamp ((some (0 : Nat)).getD 111) =
        fmtTimestamp ((some (500000 : Nat)).getD 222) := by decide
    unfold buildBasename determineTimestampSuffix
    rw [hf]

/-- C8 amended: the base filename is the sanitized display name — only
characters from `[A-Za-z0-9._-]` survive, never empty — joined by a
hyphen to the `YYYYMMDDHHMMSS` rendering of `modified_at` when present
(wall clock otherwise).  It is reproducible: with `modified_at` present
it does not depend on the wall clock.  Two documents with the same name
and different `modified_at` values get different basenames whenever their
timestamps differ at whole-second UTC granularity (distinct
`YYYYMMDDHHMMSS` renderings); sub-second differences collide. -/
theorem C8_amended_naming :
    (∀ (name : List Char) (t now₁ now₂ : Nat),
      buildBasename name (some t) now₁ = buildBasename name (some t) now₂) ∧
    (∀ (name : List Char) (t now : Nat),
      buildBasename name (some t) now = sanitizeName name ++ '-' :: fmtTimestamp t) ∧
    (∀ name : List Char,
      (∀ x ∈ sanitizeName name, isSafeFilenameChar x = true) ∧ sanitizeName name ≠ []) ∧
    (∀ (name : List Char) (t₁ t₂ now₁ now₂ : Nat),
      fmtTimestamp t₁ ≠ fmtTimestamp t₂ →
      buildBasename name (some t₁) now₁ ≠ buildBasename name (some t₂) now₂) := by
  refine ⟨fun _ _ _ _ => rfl, fun _ _ _ => rfl,
    fun name => ⟨sanitizeName_all_safe name, sanitizeName_ne_nil name⟩, ?_⟩
  intro name t₁ t₂ now₁ now₂ hne hcontra
  unfold buildBasename determineTimestampSuffix at hcontra
  simp only [Option.getD_some] at hcontra
  have h2 := List.append_cancel_left hcontra
  injection h2 with h3 h4
  exact hne h4

theorem C8_amended_witness :
    buildBasename "Report".toList (some 0) 111 = buildBasename "Report".toList (some 0) 222 ∧
    buildBasename "Report".toList (some 0) 111 ≠
      buildBasename "Report".toList (some 86400000000) 111 :=
  ⟨C8_amended_naming.1 "Report".toList 0 111 222,
   C8_amended_naming.2.2.2 "Report".toList 0 86400000000 111 111 (by decide)⟩

end Ink2md

/-! ## Git-backed output (`GitMarkdownOutputHandler` in
`src/ink2md/output.py`).

The git working tree, index and HEAD are modelled as path→content maps;
`git add`, `git diff --cached --quiet -- <paths>`, `git reset HEAD --
<paths>`, `git commit` and `git push` get their standard meanings over
this state.  `gitHandlerWrite` is the composition
`MarkdownOutputHandler.write` + `_post_write` of the git handler. -/

namespace Ink2md

abbrev FileMap := List (String × List Char)

def assocRemove {α : Type} (k : String) (l : List (String × α)) : List (String × α) :=
  l.filter fun kv => decide (kv.1 ≠ k)

structure GitRepo where
  head : FileMap
  index : FileMap
  work : FileMap
  commits : Nat
  pushes : Nat

/-- `git add <p>`: stage the working-tree content of `p` (a missing file
stages its removal). -/
def gitAdd (p : String) (r : GitRepo) : GitRepo :=
  match assocGet r.work p with
  | some c => { r with index := assocSet p c r.index }
  | none => { r with index := assocRemove p r.index }

/-- `git diff --cached --quiet -- <paths>` exits 1 (differences) iff some
listed path differs between the index and HEAD;
`_has_any_staged_changes` returns that bit. -/
def stagedDiff (paths : List String) (r : GitRepo) : Bool :=
  paths.any fun p => decide (assocGet r.index p ≠ assocGet r.head p)

/-- `git reset HEAD -- <paths>`: restore the listed index entries from
HEAD. -/
def gitResetPaths (paths : List String) (r : GitRepo) : GitRepo :=
  { r with index := paths.foldl (fun ix p =>
      match assocGet r.head p with
      | some c => assocSet p c ix
      | none => assocRemove p ix) r.index }

def gitCommit (r : GitRepo) : GitRepo :=
  { r with head := r.index, commits := r.commits + 1 }

def gitPush (r : GitRepo) : GitRepo :=
  { r with pushes := r.pushes + 1 }

def mdPathOf (dir : String) (doc : CloudDocument) (now : Nat) : String :=
  dir ++ "/" ++ String.mk (buildBasename doc.name doc.modified_at now) ++ ".md"

def pdfPathOf (assetDir : String) (doc : CloudDocument) (now : Nat) : String :=
  assetDir ++ "/" ++ String.mk (buildBasename doc.name doc.modified_at now) ++ ".pdf"

structure GitWriteResult where
  repo : GitRepo
  committed : Bool
  resetPaths : Option (List String)
  markdownPath : String

/-- The git write when no PDF asset copy is made: write `<basename>.md`,
`git add` it, then reset-or-commit as `_post_write` does. -/
def gitWriteNoAsset (dir : String) (push : Bool) (doc : CloudDocument)
    (markdown : List Char) (now : Nat) (r0 : GitRepo) : GitWriteResult :=
  let mdPath := mdPathOf dir doc now
  let r1 : GitRepo := { r0 with work := assocSet mdPath markdown r0.work }
  let r3 := gitAdd mdPath r1
  let paths := [mdPath]
  if !stagedDiff paths r3 then
    ⟨gitResetPaths paths r3, false, some paths, mdPath⟩
  else
    let r4 := gitCommit r3
    ⟨if push then gitPush r4 else r4, true, none, mdPath⟩

/-- The git write when an asset directory is configured and PDF bytes are
given: write `<basename>.md` and copy `<basename>.pdf`, `git add` both
(markdown first), then reset-or-commit as `_post_write` does. -/
def gitWriteWithAsset (dir ad : String) (push : Bool) (doc : CloudDocument)
    (markdown bytes : List Char) (now : Nat) (r0 : GitRepo) : GitWriteResult :=
  let mdPath := mdPathOf dir doc now
  let pdfPath := pdfPathOf ad doc now
  let r1 : GitRepo := { r0 with work := assocSet mdPath markdown r0.work }
  let r2 : GitRepo := { r1 with work := assocSet pdfPath bytes r1.work }
  let r3 := gitAdd pdfPath (gitAdd mdPath r2)
  let paths := [mdPath, pdfPath]
  if !stagedDiff paths r3 then
    ⟨gitResetPaths paths r3, false, some paths, mdPath⟩
  else
    let r4 := gitCommit r3
    ⟨if push then gitPush r4 else r4, true, none, mdPath⟩

/-- `GitMarkdownOutputHandler.write`: write `<basename>.md` (and, when an
asset directory is configured and PDF bytes are given, copy
`<basename>.pdf`), `git add` the path(s); if the staged paths show no
diff against HEAD, `git reset` exactly those paths and return without
committing, else commit and optionally push. -/
def gitHandlerWrite (dir : String) (assetDir : Option String) (push : Bool)
    (doc : CloudDocument) (markdown : List Char) (pdfBytes : Option (List Char))
    (now : Nat) (r0 : GitRepo) : GitWriteResult :=
  match assetDir, pdfBytes with
  | some ad, some bytes => gitWriteWithAsset dir ad push doc markdown bytes now r0
  | _, _ => gitWriteNoAsset dir push doc markdown now r0

theorem append_md_ne_pdf (a b : String) : a ++ ".md" ≠ b ++ ".pdf" := by
  intro h
  have hd : (a ++ ".md").data = (b ++ ".pdf").data := congrArg String.data h
  rw [String.data_append, String.data_append] at hd
  have hrev := congrArg List.reverse hd
  rw [List.reverse_append, List.reverse_append] at hrev
  simp at hrev

end Ink2md

namespace Ink2md

theorem structure_eta_work (r : GitRepo) : ({ r with work := r.work } : GitRepo) = r := rfl

theorem structure_eta_index (r : GitRepo) : ({ r with index := r.index } : GitRepo) = r := rfl

theorem mdPathOf_now_irrel (dir : String) (doc : CloudDocument) (t now₁ now₂ : Nat)
    (h : doc.modified_at = some t) : mdPathOf dir doc now₁ = mdPathOf dir doc now₂ := by
  unfold mdPathOf buildBasename determineTimestampSuffix
  rw [h]
  simp [Option.getD_some]

theorem pdfPathOf_now_irrel (ad : String) (doc : CloudDocument) (t now₁ now₂ : Nat)
    (h : doc.modified_at = some t) : pdfPathOf ad doc now₁ = pdfPathOf ad doc now₂ := by
  unfold pdfPathOf buildBasename determineTimestampSuffix
  rw [h]
  simp [Option.getD_some]

theorem mdPath_ne_pdfPath (dir ad : String) (doc : CloudDocument) (now₁ now₂ : Nat) :
    mdPathOf dir doc now₁ ≠ pdfPathOf ad doc now₂ :=
  append_md_ne_pdf _ _

/-- A repeated no-asset git write whose markdown content already sits in
the working tree, the index and HEAD is a staged-then-reset no-op. -/
theorem gitWriteNoAsset_noop (dir : String) (push : Bool) (doc : CloudDocument)
    (markdown : List Char) (now : Nat) (r : GitRepo)
    (hw : assocGet r.work (mdPathOf dir doc now) = some markdown)
    (hi : assocGet r.index (mdPathOf dir doc now) = some markdown)
    (hh : assocGet r.head (mdPathOf dir doc now) = some markdown) :
    gitWriteNoAsset dir push doc markdown now r =
      ⟨r, false, some [mdPathOf dir doc now], mdPathOf dir doc now⟩ := by
  have h1 : assocSet (mdPathOf dir doc now) markdown r.work = r.work := assocSet_same hw
  have h2 : assocSet (mdPathOf dir doc now) markdown r.index = r.index := assocSet_same hi
  simp only [gitWriteNoAsset, h1, structure_eta_work, gitAdd, hw, h2, structure_eta_index,
    stagedDiff, gitResetPaths, hi, hh]
  simp [List.foldl, hh, h2, structure_eta_index]
  exact hi

theorem gitWriteNoAsset_commit_facts (dir : String) (push : Bool) (doc : CloudDocument)
    (markdown : List Char) (now : Nat) (r0 : GitRepo)
    (hc : (gitWriteNoAsset dir push doc markdown now r0).committed = true) :
    assocGet (gitWriteNoAsset dir push doc markdown now r0).repo.work
        (mdPathOf dir doc now) = some markdown ∧
    assocGet (gitWriteNoAsset dir push doc markdown now r0).repo.index
        (mdPathOf dir doc now) = some markdown ∧
    assocGet (gitWriteNoAsset dir push doc markdown now r0).repo.head
        (mdPathOf dir doc now) = some markdown ∧
    (gitWriteNoAsset dir push doc markdown now r0).repo.commits = r0.commits + 1 := by
  have hadd : gitAdd (mdPathOf dir doc now)
      { r0 with work := assocSet (mdPathOf dir doc now) markdown r0.work } =
      { r0 with work := assocSet (mdPathOf dir doc now) markdown r0.work,
                index := assocSet (mdPathOf dir doc now) markdown r0.index } := by
    simp [gitAdd, assocGet_set_self]
  cases hsd : stagedDiff [mdPathOf dir doc now]
      (gitAdd (mdPathOf dir doc now)
        { r0 with work := assocSet (mdPathOf dir doc now) markdown r0.work }) with
  | false =>
    exfalso
    simp only [gitWriteNoAsset, hsd] at hc
    simp at hc
  | true =>
    simp only [gitWriteNoAsset, hadd] at hsd ⊢
    simp only [hsd]
    cases push <;> simp [gitPush, gitCommit, assocGet_set_self]

/-- A repeated with-asset git write whose markdown and PDF contents
already sit in the working tree, the index and HEAD is a
staged-then-reset no-op on both paths. -/
theorem gitWriteWithAsset_noop (dir ad : String) (push : Bool) (doc : CloudDocument)
    (markdown bytes : List Char) (now : Nat) (r : GitRepo)
    (hw : assocGet r.work (mdPathOf dir doc now) = some markdown)
    (hi : assocGet r.index (mdPathOf dir doc now) = some markdown)
    (hh : assocGet r.head (mdPathOf dir doc now) = some markdown)
    (hwp : assocGet r.work (pdfPathOf ad doc now) = some bytes)
    (hip : assocGet r.index (pdfPathOf ad doc now) = some bytes)
    (hhp : assocGet r.head (pdfPathOf ad doc now) = some bytes) :
    gitWriteWithAsset dir ad push doc markdown bytes now r =
      ⟨r, false, some [mdPathOf dir doc now, pdfPathOf ad doc now],
       mdPathOf dir doc now⟩ := by
  have h1 : assocSet (mdPathOf dir doc now) markdown r.work = r.work := assocSet_same hw
  have h2 : assocSet (mdPathOf dir doc now) markdown r.index = r.index := assocSet_same hi
  have h3 : assocSet (pdfPathOf ad doc now) bytes r.work = r.work := assocSet_same hwp
  have h4 : assocSet (pdfPathOf ad doc now) bytes r.index = r.index := assocSet_same hip
  simp only [gitWriteWithAsset, h1, structure_eta_work, h3, gitAdd, hw, h2,
    structure_eta_index, hwp, h4, stagedDiff, gitResetPaths, hi, hh, hip, hhp]
  simp [List.foldl, hh, hhp, h2, h4, structure_eta_index]
  exact ⟨hi, hip⟩

theorem gitWriteWithAsset_commit_facts (dir ad : String) (push : Bool)
    (doc : CloudDocument) (markdown bytes : List Char) (now : Nat) (r0 : GitRepo)
    (hc : (gitWriteWithAsset dir ad push doc markdown bytes now r0).committed = true) :
    assocGet (gitWriteWithAsset dir ad push doc markdown bytes now r0).repo.work
        (mdPathOf dir doc now) = some markdown ∧
    assocGet (gitWriteWithAsset dir ad push doc markdown bytes now r0).repo.index
        (mdPathOf dir doc now) = some markdown ∧
    assocGet (gitWriteWithAsset dir ad push doc markdown bytes now r0).repo.head
        (mdPathOf dir doc now) = some markdown ∧
    assocGet (gitWriteWithAsset dir ad push doc markdown bytes now r0).repo.work
        (pdfPathOf ad doc now) = some bytes ∧
    assocGet (gitWriteWithAsset dir ad push doc markdown bytes now r0).repo.index
        (pdfPathOf ad doc now) = some bytes ∧
    assocGet (gitWriteWithAsset dir ad push doc markdown bytes now r0).repo.head
        (pdfPathOf ad doc now) = some bytes ∧
    (gitWriteWithAsset dir ad push doc markdown bytes now r0).repo.commits =
      r0.commits + 1 := by
  have hne : mdPathOf dir doc now ≠ pdfPathOf ad doc now :=
    mdPath_ne_pdfPath dir ad doc now now
  have hwmd : assocGet (assocSet (pdfPathOf ad doc now) bytes
      (assocSet (mdPathOf dir doc now) markdown r0.work)) (mdPathOf dir doc now) =
      some markdown := by
    rw [assocGet_set_other _ _ hne, assocGet_set_self]
  have hadd1 : gitAdd (mdPathOf dir doc now)
      { r0 with
          work := (assocSet (pdfPathOf ad doc now) bytes
            (assocSet (mdPathOf dir doc now) markdown r0.work)) } =
      { r0 with
          work := (assocSet (pdfPathOf ad doc now) bytes
            (assocSet (mdPathOf dir doc now) markdown r0.work)),
          index := assocSet (mdPathOf dir doc now) markdown r0.index } := by
    simp [gitAdd, hwmd]
  have hadd2 : gitAdd (pdfPathOf ad doc now)
      { r0 with
          work := (assocSet (pdfPathOf ad doc now) bytes
            (assocSet (mdPathOf dir doc now) markdown r0.work)),
          index := assocSet (mdPathOf dir doc now) markdown r0.index } =
      { r0 with
          work := (assocSet (pdfPathOf ad doc now) bytes
            (assocSet (mdPathOf dir doc now) markdown r0.work)),
          index := (assocSet (pdfPathOf ad doc now) bytes
            (assocSet (mdPathOf dir doc now) markdown r0.index)) } := by
    simp [gitAdd, assocGet_set_self]
  cases hsd : stagedDiff [mdPathOf dir doc now, pdfPathOf ad doc now]
      (gitAdd (pdfPathOf ad doc now) (gitAdd (mdPathOf dir doc now)
        { r0 with work := (assocSet (pdfPathOf ad doc now) bytes
            (assocSet (mdPathOf dir doc now) markdown r0.work)) })) with
  | false =>
    exfalso
    simp only [gitWriteWithAsset, hsd] at hc
    simp at hc
  | true =>
    simp only [gitWriteWithAsset, hadd1, hadd2] at hsd ⊢
    simp only [hsd]
    cases push <;>
      simp [gitPush, gitCommit, assocGet_set_self, assocGet_set_other _ _ hne]

end Ink2md

namespace Ink2md

/-- C4: idempotent git commit.  Writing the identical
`(document, markdown[, pdf bytes])` pair twice through the git-backed
output handler — with `modified_at` fixed, so the basename is stable —
performs exactly one commit: the first write commits (revision count goes
up by one), and the second write finds no staged diff against HEAD for
exactly the staged paths, resets exactly those paths, and returns without
committing, leaving the repository state — revision count included —
unchanged. -/
theorem C4_idempotent_git_commit :
    ∀ (dir : String) (assetDir : Option String) (push : Bool) (doc : CloudDocument)
      (markdown : List Char) (pdfBytes : Option (List Char)) (t now₁ now₂ : Nat)
      (r0 : GitRepo),
      doc.modified_at = some t →
      (gitHandlerWrite dir assetDir push doc markdown pdfBytes now₁ r0).committed = true →
      (gitHandlerWrite dir assetDir push doc markdown pdfBytes now₁ r0).repo.commits =
        r0.commits + 1 ∧
      gitHandlerWrite dir assetDir push doc markdown pdfBytes now₂
          (gitHandlerWrite dir assetDir push doc markdown pdfBytes now₁ r0).repo =
        ⟨(gitHandlerWrite dir assetDir push doc markdown pdfBytes now₁ r0).repo, false,
         some (match assetDir, pdfBytes with
               | some ad, some _ => [mdPathOf dir doc now₂, pdfPathOf ad doc now₂]
               | _, _ => [mdPathOf dir doc now₂]),
         mdPathOf dir doc now₂⟩ := by
  intro dir assetDir push doc markdown pdfBytes t now₁ now₂ r0 hmod hc
  have hmd : mdPathOf dir doc now₂ = mdPathOf dir doc now₁ :=
    mdPathOf_now_irrel dir doc t now₂ now₁ hmod
  cases assetDir with
  | some ad =>
    cases pdfBytes with
    | some bytes =>
      simp only [gitHandlerWrite] at hc ⊢
      obtain ⟨f1, f2, f3, f4, f5, f6, f7⟩ :=
        gitWriteWithAsset_commit_facts dir ad push doc markdown bytes now₁ r0 hc
      have hpdf : pdfPathOf ad doc now₂ = pdfPathOf ad doc now₁ :=
        pdfPathOf_now_irrel ad doc t now₂ now₁ hmod
      refine ⟨f7, ?_⟩
      exact gitWriteWithAsset_noop dir ad push doc markdown bytes now₂ _
        (by rw [hmd]; exact f1) (by rw [hmd]; exact f2) (by rw [hmd]; exact f3)
        (by rw [hpdf]; exact f4) (by rw [hpdf]; exact f5) (by rw [hpdf]; exact f6)
    | none =>
      simp only [gitHandlerWrite] at hc ⊢
      obtain ⟨f1, f2, f3, f4⟩ :=
        gitWriteNoAsset_commit_facts dir push doc markdown now₁ r0 hc
      refine ⟨f4, ?_⟩
      exact gitWriteNoAsset_noop dir push doc markdown now₂ _
        (by rw [hmd]; exact f1) (by rw [hmd]; exact f2) (by rw [hmd]; exact f3)
  | none =>
    cases pdfBytes with
    | some bytes =>
      simp only [gitHandlerWrite] at hc ⊢
      obtain ⟨f1, f2, f3, f4⟩ :=
        gitWriteNoAsset_commit_facts dir push doc markdown now₁ r0 hc
      refine ⟨f4, ?_⟩
      exact gitWriteNoAsset_noop dir push doc markdown now₂ _
        (by rw [hmd]; exact f1) (by rw [hmd]; exact f2) (by rw [hmd]; exact f3)
    | none =>
      simp only [gitHandlerWrite] at hc ⊢
      obtain ⟨f1, f2, f3, f4⟩ :=
        gitWriteNoAsset_commit_facts dir push doc markdown now₁ r0 hc
      refine ⟨f4, ?_⟩
      exact gitWriteNoAsset_noop dir push doc markdown now₂ _
        (by rw [hmd]; exact f1) (by rw [hmd]; exact f2) (by rw [hmd]; exact f3)

def c4doc : CloudDocument := ⟨"doc-4", "Doc".toList, some 0⟩

def c4repo : GitRepo := ⟨[], [], [], 0, 0⟩

theorem C4_witness :
    (gitHandlerWrite "out" none false c4doc ['x'] none 3 c4repo).repo.commits =
      c4repo.commits + 1 ∧
    gitHandlerWrite "out" none false c4doc ['x'] none 5
        (gitHandlerWrite "out" none false c4doc ['x'] none 3 c4repo).repo =
      ⟨(gitHandlerWrite "out" none false c4doc ['x'] none 3 c4repo).repo, false,
       some [mdPathOf "out" c4doc 5], mdPathOf "out" c4doc 5⟩ :=
  C4_idempotent_git_commit "out" none false c4doc ['x'] none 0 3 5 c4repo rfl (by decide)

end Ink2md
